import Mathlib

/-!
Verification development for the url-parser CLI.

The source program is a TypeScript CLI with four parts:
a bracket-aware URL scanner `parseUrls`, a retrying fetcher
`fetchWithRetry` / `processUrl`, a deduplicating rate-limited driver
`main` (file mode and stdin stream mode), and small utilities
(`addProtocol`, `extractTitle`, `extractFirstEmail`, `hashEmail`,
`sleep`).

Texts are embedded as `List Char` (JS strings are sequences of code
units; all inputs considered here are plain characters).  Effectful
code (fetching, reading the response body, reading the input file) is
embedded by passing the outcome of each effect explicitly and
collecting the externally visible actions in an event trace.
-/

namespace UrlParser

/-- Text is modelled as a list of characters. -/
abbrev Str := List Char

/-- The characters matched by the JS regex class `\s`. -/
def jsSpaceList : List Char :=
  [' ', '\t', '\n', '\r', '\u000B', '\u000C', '\u00A0', '\u1680',
   '\u2000', '\u2001', '\u2002', '\u2003', '\u2004', '\u2005', '\u2006',
   '\u2007', '\u2008', '\u2009', '\u200A', '\u2028', '\u2029', '\u202F',
   '\u205F', '\u3000', '\uFEFF']

/-- Whether a character matches the JS regex class `\s` (whitespace),
as used by the URL regex `[^\s\[\]]+` in `parseUrls`. -/
def jsSpace (c : Char) : Bool :=
  decide (c ∈ jsSpaceList)

/-- A character admitted by the regex class `[^\s\[\]]`: neither
whitespace nor a square bracket. -/
def isUrlChar (c : Char) : Bool :=
  !(jsSpace c) && c != '[' && c != ']'

/-- The characters of the literal `http://`. -/
def httpL : Str := "http://".toList

/-- The characters of the literal `https://`. -/
def httpsL : Str := "https://".toList

/-- The characters of the literal `www.`. -/
def wwwL : Str := "www.".toList

/-- Case-insensitive prefix test: `p` (already lowercase) begins the
lowercasing of `s`.  Models the `i` flag of the JS regexes, which for
the ASCII-only patterns of this program is ASCII case folding. -/
def lowerStartsWith (p s : Str) : Bool :=
  p.isPrefixOf (s.map Char.toLower)

/-- Length of the alternation `(?:https?:\/\/|www\.)` of the URL regex
when it matches at the start of `s`, case-insensitively.
The three literal alternatives are mutually exclusive at any one
position, so the JS backtracking order does not matter. -/
def schemeLen (s : Str) : Option Nat :=
  if lowerStartsWith httpsL s then some 8
  else if lowerStartsWith httpL s then some 7
  else if lowerStartsWith wwwL s then some 4
  else none

/-- One attempt of the URL regex `(?:https?:\/\/|www\.)[^\s\[\]]+` at
the start of `s`: the scheme alternation followed by a greedy
(maximal) nonempty run of `[^\s\[\]]` characters.  Returns the matched
text (in original case) and the remainder of `s` after the match. -/
def tokenAt (s : Str) : Option (Str × Str) :=
  match schemeLen s with
  | none => none
  | some k =>
    let rest := s.drop k
    let run := rest.takeWhile (fun c => isUrlChar c)
    if run.isEmpty then none
    else some (s.take k ++ run, rest.drop run.length)

/-- The successive non-overlapping matches of the URL regex found by
the `exec` loop with the `g` flag: try a match at the current
position; on success continue after the match, otherwise advance one
character.  `fuel` bounds the recursion; any `fuel ≥ s.length`
computes the full list of matches. -/
def findMatchesAux (fuel : Nat) (s : Str) : List Str :=
  match fuel, s with
  | 0, _ => []
  | _, [] => []
  | Nat.succ f, c :: rest =>
    match tokenAt (c :: rest) with
    | some (t, after) => t :: findMatchesAux f after
    | none => findMatchesAux f rest

/-- All matches of the URL regex over `s`, in document order. -/
def findMatches (s : Str) : List Str :=
  findMatchesAux s.length s

/-- The last match of the URL regex over a buffer: the value of `last`
after the `while ((match = urlRegex.exec(buffer)) !== null)` loop of
`parseUrls`.  Every match is nonempty (a scheme has length at least
four), so the JS truthiness test `if (last)` is exactly `isSome`. -/
def lastUrlToken (s : Str) : Option Str :=
  (findMatches s).getLast?

/-- The loop state of `parseUrls`: nesting depth, the accumulation
buffer of the current outermost group, the previously seen character
(`lastChar`, initially the empty string, modelled `none`), and the
emitted results. -/
structure ScanState where
  depth : Nat
  buffer : Str
  lastChar : Option Char
  results : List Str
deriving Repr, DecidableEq

/-- The initial state of the `parseUrls` loop. -/
def scanInit : ScanState := ⟨0, [], none, []⟩

/-- One iteration of the `parseUrls` loop on character `ch`, translated
from the source:

* `isEscapedBracket` holds when `ch` is a bracket and the previous
  character is a backslash;
* a non-escaped `[` increments `depth` and clears the buffer when the
  new depth is 1;
* a non-escaped `]` with `depth > 0` decrements `depth` and, when the
  new depth is 0, pushes the last URL match of the buffer (if any);
  with `depth = 0` it does nothing;
* every other character — including escaped brackets — is appended to
  the buffer when `depth ≥ 1` (in the source the two append branches
  `isEscapedBracket` and `ch !== "[" && ch !== "]"` together cover
  exactly this case);
* `lastChar` always becomes `ch`. -/
def scanStep (st : ScanState) (ch : Char) : ScanState :=
  let isEscapedBracket := (ch == '[' || ch == ']') && st.lastChar == some '\\'
  if ch == '[' && !isEscapedBracket then
    { st with depth := st.depth + 1,
              buffer := if st.depth + 1 == 1 then [] else st.buffer,
              lastChar := some ch }
  else if ch == ']' && !isEscapedBracket then
    if st.depth > 0 then
      { st with depth := st.depth - 1,
                results :=
                  if st.depth - 1 == 0 then
                    st.results ++ (lastUrlToken st.buffer).toList
                  else st.results,
                lastChar := some ch }
    else { st with lastChar := some ch }
  else
    { st with buffer := if st.depth ≥ 1 then st.buffer ++ [ch] else st.buffer,
              lastChar := some ch }

/-- `parseUrls` from the source: run the scan over the whole text and
return the emitted URLs in order. -/
def parseUrls (text : Str) : List Str :=
  (text.foldl scanStep scanInit).results

/-- State for the group decomposition: like `ScanState` but collecting
the flattened text of every closed outermost bracket group instead of
the selected URLs. -/
structure GroupState where
  depth : Nat
  buffer : Str
  lastChar : Option Char
  groups : List Str
deriving Repr, DecidableEq

/-- The initial state of the group decomposition. -/
def groupInit : GroupState := ⟨0, [], none, []⟩

/-- One step of the group decomposition: identical to `scanStep` on
`depth`, `buffer` and `lastChar`, but when an outermost group closes
it records the whole flattened buffer. -/
def groupStep (st : GroupState) (ch : Char) : GroupState :=
  let isEscapedBracket := (ch == '[' || ch == ']') && st.lastChar == some '\\'
  if ch == '[' && !isEscapedBracket then
    { st with depth := st.depth + 1,
              buffer := if st.depth + 1 == 1 then [] else st.buffer,
              lastChar := some ch }
  else if ch == ']' && !isEscapedBracket then
    if st.depth > 0 then
      { st with depth := st.depth - 1,
                groups :=
                  if st.depth - 1 == 0 then st.groups ++ [st.buffer]
                  else st.groups,
                lastChar := some ch }
    else { st with lastChar := some ch }
  else
    { st with buffer := if st.depth ≥ 1 then st.buffer ++ [ch] else st.buffer,
              lastChar := some ch }

/-- The flattened texts of the closed outermost bracket groups of a
text, in order of their closing bracket. -/
def closedGroups (text : Str) : List Str :=
  (text.foldl groupStep groupInit).groups

/-- A text has balanced non-escaped brackets when the scan of the whole
text returns to depth 0. -/
def balanced (text : Str) : Prop :=
  (text.foldl scanStep scanInit).depth = 0

instance (text : Str) : Decidable (balanced text) := by
  unfold balanced; infer_instance

/-- `addProtocol` from the utilities: prepend `https://` unless the
string already matches `/^https?:\/\//i`. -/
def hasProtocol (s : Str) : Bool :=
  lowerStartsWith httpL s || lowerStartsWith httpsL s

/-- `addProtocol` from the utilities. -/
def addProtocol (url : Str) : Str :=
  if hasProtocol url then url else httpsL ++ url

/-! ### Spec-side variants used to compare the code with the spec text -/

/-- State of the spec-side scanner of claim C2: like `ScanState`, but
with a flag telling whether the previous character was an unescaped
backslash. -/
structure EscState where
  depth : Nat
  buffer : Str
  escArmed : Bool
  results : List Str
deriving Repr, DecidableEq

/-- Spec-side scanner step, following the spec words for escaping: a
bracket is literal only when the immediately preceding character is an
unescaped backslash; a backslash that is itself escaped does not
escape the following bracket.  All other behaviour is as in
`scanStep`. -/
def escStep (st : EscState) (ch : Char) : EscState :=
  let isEscapedBracket := (ch == '[' || ch == ']') && st.escArmed
  let armed := ch == '\\' && !st.escArmed
  if ch == '[' && !isEscapedBracket then
    { st with depth := st.depth + 1,
              buffer := if st.depth + 1 == 1 then [] else st.buffer,
              escArmed := armed }
  else if ch == ']' && !isEscapedBracket then
    if st.depth > 0 then
      { st with depth := st.depth - 1,
                results :=
                  if st.depth - 1 == 0 then
                    st.results ++ (lastUrlToken st.buffer).toList
                  else st.results,
                escArmed := armed }
    else { st with escArmed := armed }
  else
    { st with buffer := if st.depth ≥ 1 then st.buffer ++ [ch] else st.buffer,
              escArmed := armed }

/-- The URL extraction as the spec escaping rule describes it. -/
def parseUrlsSpecEsc (text : Str) : List Str :=
  (text.foldl escStep ⟨0, [], false, []⟩).results

/-- The maximal runs of non-whitespace, non-bracket characters of a
text, in order.  `fuel` bounds the recursion; `fuel ≥ s.length`
computes all runs. -/
def urlRunsAux (fuel : Nat) (s : Str) : List Str :=
  match fuel, s with
  | 0, _ => []
  | _, [] => []
  | Nat.succ f, c :: rest =>
    if isUrlChar c then
      ((c :: rest).takeWhile (fun d => isUrlChar d)) ::
        urlRunsAux f ((c :: rest).dropWhile (fun d => isUrlChar d))
    else urlRunsAux f rest

/-- All maximal runs of non-whitespace, non-bracket characters. -/
def urlRuns (s : Str) : List Str := urlRunsAux s.length s

/-- The URL tokens as the spec words of claim C8 describe them: the
maximal runs of non-whitespace, non-bracket characters that begin with
`http://`, `https://` (case-insensitive) or `www.`. -/
def specRunTokens (s : Str) : List Str :=
  (urlRuns s).filter (fun r => (schemeLen r).isSome)

/-! ### The fetch-and-report step

`fetch` either rejects (network error) or resolves to a response; a
response carries its OK flag and status, and reading its body with
`res.text()` may itself reject.  Each effect outcome is passed in
explicitly; the externally visible actions are collected in an event
trace. -/

deriving instance DecidableEq for Except

/-- A resolved HTTP response: the `ok` flag and status of the `fetch`
result, and the outcome of reading the body with `res.text()` (which
may reject). -/
structure Response where
  ok : Bool
  status : Nat
  body : Except Str Str
deriving Repr, DecidableEq

/-- The outcome of one `fetch` call: a rejection (network error,
carrying a message) or a response. -/
abbrev FetchResult := Except Str Response

/-- The printed result record: the URL always, the title and the
hashed email only when present (JS object fields written only under
the truthiness tests of `processUrl`). -/
structure ResultRec where
  url : Str
  title : Option Str
  email : Option Str
deriving Repr, DecidableEq

/-- The externally visible actions of the fetch-and-report step and of
the driver loops. -/
inductive Event where
  /-- an HTTP GET is started against the given (protocol-normalized) URL -/
  | get (url : Str)
  /-- a timed delay of `ms` milliseconds (`sleep`) -/
  | wait (ms : Nat)
  /-- one diagnostic line on the error channel for the given URL -/
  | diag (url : Str)
  /-- one result line on standard output -/
  | emit (rcd : ResultRec)
deriving Repr, DecidableEq

/-- Whether one fetch attempt fails under the success criterion of
`fetchWithRetry`: the call rejects, or the response is not OK (in the
source a non-OK response is turned into a thrown error). -/
def attemptFails (a : FetchResult) : Bool :=
  match a with
  | .error _ => true
  | .ok r => !r.ok

/-- `fetchWithRetry` from the source, over the outcomes `a1` and `a2`
of the at most two `fetch(addProtocol(url))` calls: return the first
successful response; on a first failure sleep 60000 ms and try once
more; on a second failure log one diagnostic and return null.
The result pairs the returned response (if any) with the event
trace. -/
def fetchWithRetry (url : Str) (a1 a2 : FetchResult) :
    Option Response × List Event :=
  let p := addProtocol url
  if attemptFails a1 then
    if attemptFails a2 then
      (none, [.get p, .wait 60000, .get p, .diag url])
    else
      (a2.toOption, [.get p, .wait 60000, .get p])
  else
    (a1.toOption, [.get p])

/-- The record built by `processUrl` from the body text: `title` is
present when `extractTitle` returned a truthy (nonempty) string,
`email` when `extractFirstEmail` returned a truthy string and a truthy
secret is configured, in which case it is the hash of the email with
the secret. -/
def buildOut (url : Str) (secret : Option Str)
    (exTitle exEmail : Str → Option Str) (hashF : Str → Str → Str)
    (html : Str) : ResultRec :=
  { url := url,
    title :=
      match exTitle html with
      | some t => if t == [] then none else some t
      | none => none,
    email :=
      match exEmail html, secret with
      | some e, some sec =>
          if e == [] || sec == [] then none else some (hashF e sec)
      | _, _ => none }

/-- `processUrl` from the source: fetch with retry; on a null result
return silently; otherwise read the body — a rejection of
`res.text()` is not caught and propagates (`Except.error`) — then
build and print the record.  The collaborators `exTitle`, `exEmail`
and `hashF` are the external extraction and hashing capabilities; as
Lean functions they are total, as the regex-based originals are. -/
def processUrl (url : Str) (secret : Option Str) (a1 a2 : FetchResult)
    (exTitle exEmail : Str → Option Str) (hashF : Str → Str → Str) :
    Except Str (List Event) :=
  let (res?, evs) := fetchWithRetry url a1 a2
  match res? with
  | none => .ok evs
  | some r =>
    match r.body with
    | .error e => .error e
    | .ok html =>
        .ok (evs ++ [.emit (buildOut url secret exTitle exEmail hashF html)])

/-- The file-mode processing loop of `main` over the deduplicated URL
list: `await processUrl(url, secret); await sleep(1000);` for each
URL in order.  `oracle` gives the two fetch-attempt outcomes for each
URL.  An exception from `processUrl` propagates and stops the loop. -/
def runUrls (secret : Option Str) (oracle : Str → FetchResult × FetchResult)
    (exTitle exEmail : Str → Option Str) (hashF : Str → Str → Str) :
    List Str → Except Str (List Event)
  | [] => .ok []
  | u :: rest =>
    match processUrl u secret (oracle u).1 (oracle u).2 exTitle exEmail hashF with
    | .error e => .error e
    | .ok evs =>
      match runUrls secret oracle exTitle exEmail hashF rest with
      | .error e => .error e
      | .ok evs2 => .ok (evs ++ [.wait 1000] ++ evs2)

/-! ### Deduplication -/

/-- The admitUrl step of the deduplicator (the body of the `filter`
callback of file mode and of the stream-mode check): on first sight
return true and record the URL in the seen set, afterwards return
false and leave the set unchanged.  The seen set is modelled as the
list of recorded URLs. -/
def admitUrl (seen : List Str) (u : Str) : Bool × List Str :=
  if u ∈ seen then (false, seen) else (true, u :: seen)

/-- Run the admitUrl step over a list of URLs, returning the admitted
ones in order together with the final seen set. -/
def dedupScan (seen : List Str) : List Str → List Str × List Str
  | [] => ([], seen)
  | u :: rest =>
    let (b, seen2) := admitUrl seen u
    let (out, seen3) := dedupScan seen2 rest
    (if b then u :: out else out, seen3)

/-- The deduplicated URL list of file mode (`urls.filter(...)` with an
initially empty seen set). -/
def dedupFilter (urls : List Str) : List Str :=
  (dedupScan [] urls).1

/-! ### The rate-limited FIFO queue -/

/-- A queued task: the URL and the duration of its whole
fetch-and-report step (including any retry wait), in milliseconds. -/
structure QTask where
  url : Str
  dur : Nat
deriving Repr, DecidableEq

/-- `enqueue` from the stream mode of `main`: append to the FIFO and
return to the caller at once (the `void drain()` call does not await
the worker). -/
def enqueue (q : List Str) (u : Str) : List Str := q ++ [u]

/-- The timed trace of the `drain` worker: each dequeued task is
served at its start time; after the task completes the worker sleeps
1000 ms before dequeuing the next, so the next start time is
`start + dur + 1000`.  Entries are `(startTime, task)` in served
order. -/
def drainTrace (t0 : Nat) : List QTask → List (Nat × QTask)
  | [] => []
  | q :: rest => (t0, q) :: drainTrace (t0 + q.dur + 1000) rest

/-! ### The stream-mode driver -/

/-- Index of the last occurrence of `c` in `l` (JS
`lastIndexOf`), if any. -/
def lastIdxOf (c : Char) : Str → Option Nat
  | [] => none
  | x :: xs =>
    match lastIdxOf c xs with
    | some i => some (i + 1)
    | none => if x == c then some 0 else none

/-- One `data` event of stream mode: append the chunk to the retained
buffer, parse the whole buffer, admitUrl the new URLs (shared seen set),
then truncate the buffer to everything after the last `]` character
(JS `buffer.lastIndexOf("]")`).  Returns the newly admitted URLs, the
new seen set and the retained buffer. -/
def streamStep (seen : List Str) (buf chunk : Str) :
    List Str × List Str × Str :=
  let b := buf ++ chunk
  let (fresh, seen2) := dedupScan seen (parseUrls b)
  let b2 :=
    match lastIdxOf ']' b with
    | none => b
    | some i => b.drop (i + 1)
  (fresh, seen2, b2)

/-- Run stream mode over a list of chunks from the empty buffer and
empty seen set, collecting the URLs admitted for processing in
order. -/
def streamRunAux (seen : List Str) (buf : Str) : List Str → List Str
  | [] => []
  | chunk :: rest =>
    let (fresh, seen2, buf2) := streamStep seen buf chunk
    fresh ++ streamRunAux seen2 buf2 rest

/-- The URLs enqueued by stream mode over the given chunks. -/
def streamRun (chunks : List Str) : List Str :=
  streamRunAux [] [] chunks

/-- Position of the last structural `]` of a text: the last `]` whose
immediately preceding character is not a backslash (the escaping rule
of `parseUrls`).  Spec-side notion used by claim C5. -/
def lastStructClose (l : Str) : Option Nat :=
  (l.foldl
    (fun st c =>
      let (idx, prev, acc) := st
      (idx + 1, some c,
        if c == ']' && !(prev == some '\\') then some idx else acc))
    ((0 : Nat), (none : Option Char), (none : Option Nat))).2.2

/-- Spec-side stream step of claim C5: like `streamStep` but the
retained buffer is truncated to everything after the last structural
`]`. -/
def specStreamStep (seen : List Str) (buf chunk : Str) :
    List Str × List Str × Str :=
  let b := buf ++ chunk
  let (fresh, seen2) := dedupScan seen (parseUrls b)
  let b2 :=
    match lastStructClose b with
    | none => b
    | some i => b.drop (i + 1)
  (fresh, seen2, b2)

/-- Spec-side stream run of claim C5. -/
def specStreamRunAux (seen : List Str) (buf : Str) : List Str → List Str
  | [] => []
  | chunk :: rest =>
    let (fresh, seen2, buf2) := specStreamStep seen buf chunk
    fresh ++ specStreamRunAux seen2 buf2 rest

/-- The URLs the spec-side stream of claim C5 admits over the given
chunks. -/
def specStreamRun (chunks : List Str) : List Str :=
  specStreamRunAux [] [] chunks

/-- The longest suffix of `l` containing no `]` character: everything
after the last `]`. -/
def suffixAfterClose (l : Str) : Str :=
  (l.reverse.takeWhile (fun c => c != ']')).reverse

/-! ### File mode entry -/

/-- The observable outcome of file mode: the diagnostics, the URLs
admitted for processing, and whether the run terminates normally
(`main` returns, hence the process exits with status 0, reporting
success). -/
structure FileOutcome where
  diags : List Str
  processed : List Str
  normalExit : Bool
deriving Repr, DecidableEq

/-- File mode of `main` over the outcome of `fs.readFileSync`: on a
read error, print one diagnostic and return (a normal return — the
exit status still reports success); on success, parse, deduplicate
and process the URLs in order.  The fetch effects of the individual
URLs are abstracted away here; only the admitted URL sequence is
recorded. -/
def mainFile (readRes : Except Str Str) : FileOutcome :=
  match readRes with
  | .error e => { diags := [e], processed := [], normalExit := true }
  | .ok text =>
      { diags := [], processed := dedupFilter (parseUrls text),
        normalExit := true }

/-- View of a group-decomposition state as a scan state: the emitted
URLs are the last URL tokens of the collected groups. -/
def toScan (g : GroupState) : ScanState :=
  ⟨g.depth, g.buffer, g.lastChar, g.groups.filterMap lastUrlToken⟩

/-- The characters that can appear, after lowercasing, in one of the
three scheme literals. -/
def schemeChars : List Char := ['h', 't', 'p', 's', ':', '/', 'w', '.']

/-- Position of the first occurrence of `x` in a list of URLs (the
length of the list when absent).  Used to state first-occurrence
order. -/
def firstIdx (x : Str) : List Str → Nat
  | [] => 0
  | y :: ys => if y = x then 0 else firstIdx x ys + 1

/-! ## Helper lemmas -/

theorem scanStep_toScan (g : GroupState) (ch : Char) :
    scanStep (toScan g) ch = toScan (groupStep g ch) := by
  unfold scanStep groupStep toScan
  by_cases hl : g.lastChar == some '\\' <;>
  by_cases h2 : ch == '[' <;>
  by_cases h3 : ch == ']' <;>
  by_cases h4 : g.depth > 0 <;>
  by_cases h5 : g.depth - 1 == 0 <;>
  simp [hl, h2, h3, h4, h5, List.filterMap_append, List.filterMap] <;>
  (cases lastUrlToken g.buffer <;> simp)

theorem foldl_scan_toScan (text : Str) (g : GroupState) :
    text.foldl scanStep (toScan g) = toScan (text.foldl groupStep g) := by
  induction text generalizing g with
  | nil => rfl
  | cons c rest ih => simp only [List.foldl_cons, scanStep_toScan, ih]

theorem length_filterMap_eq_length_filter {α β : Type} (f : α → Option β)
    (l : List α) :
    (l.filterMap f).length = (l.filter (fun x => (f x).isSome)).length := by
  induction l with
  | nil => rfl
  | cons x xs ih =>
    cases h : f x <;>
      simp [List.filterMap_cons, List.filter_cons, h, ih]

/-- The refinement at the heart of claim C1: the scanner emits exactly
the last URL token of each closed outermost group, in group order. -/
theorem parseUrls_eq_filterMap (text : Str) :
    parseUrls text = (closedGroups text).filterMap lastUrlToken := by
  have h := foldl_scan_toScan text groupInit
  have h0 : toScan groupInit = scanInit := rfl
  rw [h0] at h
  unfold parseUrls closedGroups
  rw [h]
  rfl

theorem head?_dropWhile {α : Type} (p : α → Bool) :
    ∀ (l : List α) (c : α), (l.dropWhile p).head? = some c → p c = false := by
  intro l
  induction l with
  | nil => intro c h; simp [List.dropWhile] at h
  | cons x xs ih =>
    intro c h
    rw [List.dropWhile_cons] at h
    by_cases hx : p x
    · rw [if_pos hx] at h
      exact ih c h
    · rw [if_neg hx] at h
      simp only [List.head?_cons, Option.some.injEq] at h
      subst h
      simpa using hx

theorem drop_length_takeWhile {α : Type} (p : α → Bool) (l : List α) :
    l.drop (l.takeWhile p).length = l.dropWhile p := by
  set tw := l.takeWhile p with htw
  set dw := l.dropWhile p with hdw
  have hl : tw ++ dw = l := by
    rw [htw, hdw]; exact List.takeWhile_append_dropWhile _ _
  rw [← hl]
  exact List.drop_left tw dw

theorem urlChar_of_toLower_mem (c : Char)
    (h : Char.toLower c ∈ schemeChars) : isUrlChar c = true := by
  by_cases hb1 : c = '['
  · subst hb1; revert h; decide
  by_cases hb2 : c = ']'
  · subst hb2; revert h; decide
  by_cases hs : jsSpace c = true
  · exfalso
    have hmem : c ∈ jsSpaceList := by
      unfold jsSpace at hs; exact of_decide_eq_true hs
    have hbad : ∀ x ∈ jsSpaceList, Char.toLower x ∉ schemeChars := by decide
    exact hbad c hmem h
  · unfold isUrlChar
    simp only [Bool.and_eq_true, Bool.not_eq_true', bne_iff_ne]
    exact ⟨⟨by simpa using hs, hb1⟩, hb2⟩

theorem lowerStartsWith_take (p s : Str) (h : lowerStartsWith p s = true) :
    (s.take p.length).map Char.toLower = p := by
  have hp : p <+: s.map Char.toLower := List.isPrefixOf_iff_prefix.mp h
  obtain ⟨tl, htl⟩ := hp
  have : (s.map Char.toLower).take p.length = p := by
    rw [← htl]; exact List.take_left p tl
  rw [← List.map_take] at this
  exact this

theorem lowerStartsWith_of_lower_append (p x : Str)
    (hp : p.map Char.toLower = p) :
    lowerStartsWith p (p ++ x) = true := by
  unfold lowerStartsWith
  apply List.isPrefixOf_iff_prefix.mpr
  rw [List.map_append, hp]
  exact List.prefix_append p (x.map Char.toLower)

theorem schemeLen_isSome_of_branch (t : Str)
    (h : lowerStartsWith httpsL t = true ∨ lowerStartsWith httpL t = true ∨
         lowerStartsWith wwwL t = true) :
    (schemeLen t).isSome = true := by
  unfold schemeLen
  by_cases hA : lowerStartsWith httpsL t <;>
    by_cases hB : lowerStartsWith httpL t <;>
      by_cases hC : lowerStartsWith wwwL t <;> simp_all

theorem tokenAt_shape (s t rest : Str) (h : tokenAt s = some (t, rest)) :
    ∃ k p, schemeLen s = some k ∧ p.length = k ∧
      (p = httpsL ∨ p = httpL ∨ p = wwwL) ∧
      lowerStartsWith p s = true ∧
      t = s.take k ++ (s.drop k).takeWhile (fun c => isUrlChar c) ∧
      rest = (s.drop k).dropWhile (fun c => isUrlChar c) ∧
      ((s.drop k).takeWhile (fun c => isUrlChar c)).isEmpty = false := by
  unfold tokenAt at h
  cases hk : schemeLen s with
  | none => rw [hk] at h; cases h
  | some k =>
    rw [hk] at h
    simp only at h
    by_cases hrun : ((s.drop k).takeWhile (fun c => isUrlChar c)).isEmpty
    · rw [if_pos hrun] at h; cases h
    · rw [if_neg hrun] at h
      simp only [Option.some.injEq, Prod.mk.injEq] at h
      obtain ⟨ht, hrest⟩ := h
      have hrest2 : rest = (s.drop k).dropWhile (fun c => isUrlChar c) := by
        rw [← hrest, drop_length_takeWhile]
      have hrunF : ((s.drop k).takeWhile (fun c => isUrlChar c)).isEmpty
          = false := by simpa using hrun
      have hk2 := hk
      unfold schemeLen at hk2
      by_cases hA : lowerStartsWith httpsL s = true
      · rw [if_pos hA] at hk2
        injection hk2 with hkk
        exact ⟨k, httpsL, rfl, by rw [← hkk]; rfl, Or.inl rfl, hA,
          ht.symm, hrest2, hrunF⟩
      · rw [if_neg hA] at hk2
        by_cases hB : lowerStartsWith httpL s = true
        · rw [if_pos hB] at hk2
          injection hk2 with hkk
          exact ⟨k, httpL, rfl, by rw [← hkk]; rfl, Or.inr (Or.inl rfl), hB,
            ht.symm, hrest2, hrunF⟩
        · rw [if_neg hB] at hk2
          by_cases hC : lowerStartsWith wwwL s = true
          · rw [if_pos hC] at hk2
            injection hk2 with hkk
            exact ⟨k, wwwL, rfl, by rw [← hkk]; rfl, Or.inr (Or.inr rfl), hC,
              ht.symm, hrest2, hrunF⟩
          · rw [if_neg hC] at hk2
            cases hk2

theorem tokenAt_split (s t rest : Str) (h : tokenAt s = some (t, rest)) :
    s = t ++ rest := by
  obtain ⟨k, p, hk, hpk, hpor, hps, ht, hrest, hne⟩ := tokenAt_shape s t rest h
  subst ht; subst hrest
  rw [List.append_assoc, List.takeWhile_append_dropWhile,
    List.take_append_drop]

theorem tokenAt_scheme (s t rest : Str) (h : tokenAt s = some (t, rest)) :
    (schemeLen t).isSome = true := by
  obtain ⟨k, p, hk, hpk, hpor, hps, ht, hrest, hne⟩ := tokenAt_shape s t rest h
  have htake : (s.take k).map Char.toLower = p := by
    rw [← hpk]; exact lowerStartsWith_take p s hps
  have hlsw : lowerStartsWith p t = true := by
    unfold lowerStartsWith
    apply List.isPrefixOf_iff_prefix.mpr
    subst ht
    rw [List.map_append, htake]
    exact List.prefix_append p _
  apply schemeLen_isSome_of_branch
  rcases hpor with rfl | rfl | rfl
  · exact Or.inl hlsw
  · exact Or.inr (Or.inl hlsw)
  · exact Or.inr (Or.inr hlsw)

theorem tokenAt_chars (s t rest : Str) (h : tokenAt s = some (t, rest)) :
    t.all isUrlChar = true := by
  obtain ⟨k, p, hk, hpk, hpor, hps, ht, hrest, hne⟩ := tokenAt_shape s t rest h
  have htake : (s.take k).map Char.toLower = p := by
    rw [← hpk]; exact lowerStartsWith_take p s hps
  subst ht
  rw [List.all_append]
  apply Bool.and_eq_true_iff.mpr
  constructor
  · rw [List.all_eq_true]
    intro c hc
    apply urlChar_of_toLower_mem
    have : Char.toLower c ∈ (s.take k).map Char.toLower :=
      List.mem_map_of_mem Char.toLower hc
    rw [htake] at this
    have hsub : ∀ x, x ∈ p → x ∈ schemeChars := by
      have e1 : httpsL = ['h', 't', 't', 'p', 's', ':', '/', '/'] := by decide
      have e2 : httpL = ['h', 't', 't', 'p', ':', '/', '/'] := by decide
      have e3 : wwwL = ['w', 'w', 'w', '.'] := by decide
      intro x hx
      rcases hpor with rfl | rfl | rfl
      · rw [e1] at hx
        simp only [List.mem_cons, List.not_mem_nil, or_false] at hx
        rcases hx with rfl | rfl | rfl | rfl | rfl | rfl | rfl | rfl <;> decide
      · rw [e2] at hx
        simp only [List.mem_cons, List.not_mem_nil, or_false] at hx
        rcases hx with rfl | rfl | rfl | rfl | rfl | rfl | rfl <;> decide
      · rw [e3] at hx
        simp only [List.mem_cons, List.not_mem_nil, or_false] at hx
        rcases hx with rfl | rfl | rfl | rfl <;> decide
    exact hsub _ this
  · rw [List.all_eq_true]
    intro c hc
    exact List.mem_takeWhile_imp hc

theorem tokenAt_maximal (s t rest : Str) (h : tokenAt s = some (t, rest)) :
    ∀ c, rest.head? = some c → isUrlChar c = false := by
  obtain ⟨k, p, hk, hpk, hpor, hps, ht, hrest, hne⟩ := tokenAt_shape s t rest h
  subst hrest
  intro c hc
  exact head?_dropWhile _ _ c hc

theorem mem_findMatchesAux (fuel : Nat) :
    ∀ (s t : Str), t ∈ findMatchesAux fuel s →
      ∃ u rest, tokenAt u = some (t, rest) := by
  induction fuel with
  | zero => intro s t h; simp [findMatchesAux] at h
  | succ f ih =>
    intro s t h
    cases s with
    | nil => simp [findMatchesAux] at h
    | cons c cs =>
      unfold findMatchesAux at h
      cases htok : tokenAt (c :: cs) with
      | none =>
        rw [htok] at h
        exact ih cs t h
      | some pr =>
        rw [htok] at h
        obtain ⟨t0, after⟩ := pr
        simp only [List.mem_cons] at h
        rcases h with rfl | h
        · exact ⟨c :: cs, after, htok⟩
        · exact ih after t h

theorem scanStep_results_of_ne (st : ScanState) (c : Char) (hc : c ≠ ']') :
    (scanStep st c).results = st.results := by
  unfold scanStep
  have hc2 : (c == ']') = false := by simpa using hc
  by_cases h1 : (c == '[' && !((c == '[' || c == ']') &&
      st.lastChar == some '\\')) = true
  · rw [if_pos h1]
  · rw [if_neg h1]
    rw [hc2]
    simp only [Bool.false_and, Bool.false_eq_true, if_false]

theorem foldl_results_of_no_close (t : Str) :
    ∀ st : ScanState, ']' ∉ t → (t.foldl scanStep st).results = st.results := by
  induction t with
  | nil => intro st _; rfl
  | cons c cs ih =>
    intro st ht
    have hc : c ≠ ']' := fun he => ht (he ▸ List.mem_cons_self c cs)
    have hcs : ']' ∉ cs := fun hm => ht (List.mem_cons_of_mem c hm)
    rw [List.foldl_cons, ih _ hcs, scanStep_results_of_ne st c hc]

theorem parseUrls_nil_of_no_close (t : Str) (h : ']' ∉ t) :
    parseUrls t = [] := by
  unfold parseUrls
  rw [foldl_results_of_no_close t scanInit h]
  rfl

theorem lastIdxOf_none_iff (c : Char) :
    ∀ l : Str, lastIdxOf c l = none ↔ c ∉ l := by
  intro l
  induction l with
  | nil => simp [lastIdxOf]
  | cons x xs ih =>
    constructor
    · intro hn hmem
      unfold lastIdxOf at hn
      cases h : lastIdxOf c xs with
      | some i => rw [h] at hn; cases hn
      | none =>
        rw [h] at hn
        by_cases hx : (x == c) = true
        · rw [if_pos hx] at hn; cases hn
        · rcases List.mem_cons.mp hmem with heq | hm
          · exact hx (beq_iff_eq.mpr heq.symm)
          · exact (ih.mp h) hm
    · intro hmem
      unfold lastIdxOf
      have hxs : lastIdxOf c xs = none :=
        ih.mpr (fun hm => hmem (List.mem_cons_of_mem x hm))
      rw [hxs]
      have hx : (x == c) = false := by
        apply beq_eq_false_iff_ne.mpr
        intro he
        subst he
        exact hmem (List.mem_cons_self x xs)
      rw [hx]
      simp

theorem lastIdxOf_take_drop (c : Char) :
    ∀ (l : Str) (i : Nat), lastIdxOf c l = some i →
      l.take (i + 1) = l.take i ++ [c] ∧ c ∉ l.drop (i + 1) := by
  intro l
  induction l with
  | nil => intro i h; cases h
  | cons x xs ih =>
    intro i h
    unfold lastIdxOf at h
    cases hxs : lastIdxOf c xs with
    | some j =>
      rw [hxs] at h
      injection h with hij
      subst hij
      obtain ⟨h1, h2⟩ := ih j hxs
      constructor
      · rw [List.take_succ_cons, h1, List.take_succ_cons]
        rfl
      · rw [List.drop_succ_cons]
        exact h2
    | none =>
      rw [hxs] at h
      by_cases hx : (x == c) = true
      · rw [if_pos hx] at h
        injection h with hij
        subst hij
        have hxc : x = c := beq_iff_eq.mp hx
        subst hxc
        constructor
        · rfl
        · rw [List.drop_succ_cons]
          simpa using (lastIdxOf_none_iff x xs).mp hxs
      · rw [if_neg hx] at h
        cases h

/-! ### Deduplicator lemmas -/

theorem dedupScan_cons_seen (seen : List Str) (u : Str) (rest : List Str)
    (hu : u ∈ seen) : dedupScan seen (u :: rest) = dedupScan seen rest := by
  simp [dedupScan, admitUrl, hu]

theorem dedupScan_cons_new (seen : List Str) (u : Str) (rest : List Str)
    (hu : u ∉ seen) :
    dedupScan seen (u :: rest) =
      (u :: (dedupScan (u :: seen) rest).1, (dedupScan (u :: seen) rest).2) := by
  simp [dedupScan, admitUrl, hu]

theorem dedupScan_fst_mem (l : List Str) :
    ∀ (seen : List Str) (x : Str),
      x ∈ (dedupScan seen l).1 ↔ x ∈ l ∧ x ∉ seen := by
  induction l with
  | nil => intro seen x; simp [dedupScan]
  | cons u rest ih =>
    intro seen x
    by_cases hu : u ∈ seen
    · rw [dedupScan_cons_seen seen u rest hu, ih seen x]
      constructor
      · rintro ⟨hm, hns⟩
        exact ⟨List.mem_cons_of_mem u hm, hns⟩
      · rintro ⟨hm, hns⟩
        rcases List.mem_cons.mp hm with rfl | hm2
        · exact absurd hu hns
        · exact ⟨hm2, hns⟩
    · rw [dedupScan_cons_new seen u rest hu]
      simp only [List.mem_cons]
      rw [ih (u :: seen) x]
      constructor
      · rintro (rfl | ⟨hm, hns⟩)
        · exact ⟨Or.inl rfl, hu⟩
        · exact ⟨Or.inr hm, fun hx => hns (List.mem_cons_of_mem u hx)⟩
      · rintro ⟨rfl | hm, hns⟩
        · exact Or.inl rfl
        · by_cases hxu : x = u
          · exact Or.inl hxu
          · exact Or.inr ⟨hm, fun hx =>
              (List.mem_cons.mp hx).elim hxu hns⟩

theorem dedupScan_fst_nodup (l : List Str) :
    ∀ seen : List Str, (dedupScan seen l).1.Nodup := by
  induction l with
  | nil => intro seen; simp [dedupScan]
  | cons u rest ih =>
    intro seen
    by_cases hu : u ∈ seen
    · rw [dedupScan_cons_seen seen u rest hu]
      exact ih seen
    · rw [dedupScan_cons_new seen u rest hu]
      refine List.nodup_cons.mpr ⟨?_, ih (u :: seen)⟩
      intro hmem
      have := (dedupScan_fst_mem rest (u :: seen) u).mp hmem
      exact this.2 (List.mem_cons_self u seen)

theorem dedupScan_fst_sublist (l : List Str) :
    ∀ seen : List Str, List.Sublist (dedupScan seen l).1 l := by
  induction l with
  | nil => intro seen; simp [dedupScan]
  | cons u rest ih =>
    intro seen
    by_cases hu : u ∈ seen
    · rw [dedupScan_cons_seen seen u rest hu]
      exact List.Sublist.cons u (ih seen)
    · rw [dedupScan_cons_new seen u rest hu]
      exact List.Sublist.cons₂ u (ih (u :: seen))

theorem dedupScan_append (l1 : List Str) :
    ∀ (seen : List Str) (l2 : List Str),
      dedupScan seen (l1 ++ l2) =
        ((dedupScan seen l1).1 ++ (dedupScan (dedupScan seen l1).2 l2).1,
         (dedupScan (dedupScan seen l1).2 l2).2) := by
  induction l1 with
  | nil => intro seen l2; simp [dedupScan]
  | cons u rest ih =>
    intro seen l2
    by_cases hu : u ∈ seen
    · rw [List.cons_append, dedupScan_cons_seen seen u (rest ++ l2) hu,
        dedupScan_cons_seen seen u rest hu, ih seen l2]
    · rw [List.cons_append, dedupScan_cons_new seen u (rest ++ l2) hu,
        dedupScan_cons_new seen u rest hu, ih (u :: seen) l2]
      rfl

theorem firstIdx_cons_self (a : Str) (l : List Str) :
    firstIdx a (a :: l) = 0 := by
  simp [firstIdx]

theorem firstIdx_cons_ne (a b : Str) (l : List Str) (h : b ≠ a) :
    firstIdx a (b :: l) = firstIdx a l + 1 := by
  simp [firstIdx, h]

theorem dedupScan_order (l : List Str) :
    ∀ (seen : List Str) (a b : Str),
      a ∈ (dedupScan seen l).1 → b ∈ (dedupScan seen l).1 →
      (firstIdx a (dedupScan seen l).1 ≤ firstIdx b (dedupScan seen l).1 ↔
        firstIdx a l ≤ firstIdx b l) := by
  induction l with
  | nil => intro seen a b ha _; simp [dedupScan] at ha
  | cons u rest ih =>
    intro seen a b ha hb
    by_cases hu : u ∈ seen
    · rw [dedupScan_cons_seen seen u rest hu] at ha hb ⊢
      have hans : a ∉ seen := ((dedupScan_fst_mem rest seen a).mp ha).2
      have hbns : b ∉ seen := ((dedupScan_fst_mem rest seen b).mp hb).2
      have hau : u ≠ a := fun he => hans (he ▸ hu)
      have hbu : u ≠ b := fun he => hbns (he ▸ hu)
      rw [firstIdx_cons_ne a u rest hau, firstIdx_cons_ne b u rest hbu,
        Nat.add_le_add_iff_right]
      exact ih seen a b ha hb
    · rw [dedupScan_cons_new seen u rest hu] at ha hb ⊢
      rcases eq_or_ne a u with rfl | hau
      · rw [firstIdx_cons_self, firstIdx_cons_self]
        simp
      · rcases eq_or_ne b u with rfl | hbu
        · rw [firstIdx_cons_self, firstIdx_cons_self,
            firstIdx_cons_ne a b (dedupScan (b :: seen) rest).1 (Ne.symm hau),
            firstIdx_cons_ne a b rest (Ne.symm hau)]
          constructor
          · intro hle; exact absurd hle (by omega)
          · intro hle; exact absurd hle (by omega)
        · have ha2 : a ∈ (dedupScan (u :: seen) rest).1 := by
            rcases List.mem_cons.mp ha with rfl | h2
            · exact absurd rfl hau
            · exact h2
          have hb2 : b ∈ (dedupScan (u :: seen) rest).1 := by
            rcases List.mem_cons.mp hb with rfl | h2
            · exact absurd rfl hbu
            · exact h2
          rw [firstIdx_cons_ne a u (dedupScan (u :: seen) rest).1 (Ne.symm hau),
            firstIdx_cons_ne b u (dedupScan (u :: seen) rest).1 (Ne.symm hbu),
            firstIdx_cons_ne a u rest (Ne.symm hau),
            firstIdx_cons_ne b u rest (Ne.symm hbu),
            Nat.add_le_add_iff_right, Nat.add_le_add_iff_right]
          exact ih (u :: seen) a b ha2 hb2

/-! ### Queue lemmas -/

theorem drainTrace_tasks (tasks : List QTask) :
    ∀ t0 : Nat, (drainTrace t0 tasks).map Prod.snd = tasks := by
  induction tasks with
  | nil => intro t0; rfl
  | cons q rest ih =>
    intro t0
    rw [drainTrace, List.map_cons, ih]

theorem drainTrace_chain (tasks : List QTask) :
    ∀ t0 : Nat,
      List.Chain' (fun a b : Nat × QTask =>
        b.1 = a.1 + a.2.dur + 1000) (drainTrace t0 tasks) := by
  induction tasks with
  | nil => intro t0; exact trivial
  | cons q rest ih =>
    intro t0
    cases rest with
    | nil => exact List.chain'_singleton _
    | cons q2 rest2 =>
      rw [drainTrace, drainTrace]
      refine List.chain'_cons.mpr ⟨rfl, ?_⟩
      rw [← drainTrace]
      exact ih (t0 + q.dur + 1000)

/-! ## Claim theorems -/

/-- C1: for every input text, each closed outermost bracket group emits
zero or one CandidateURL — none when the flattened group text contains
no URL-like token, and otherwise exactly the last URL-like token in
document order — and for texts with balanced non-escaped brackets the
number of emitted candidates equals the number of outermost groups
containing at least one URL-like token. -/
theorem claim1_last_token_per_group (text : Str) :
    parseUrls text = (closedGroups text).filterMap lastUrlToken ∧
    (balanced text →
      (parseUrls text).length =
        ((closedGroups text).filter
          (fun g => (lastUrlToken g).isSome)).length) := by
  refine ⟨parseUrls_eq_filterMap text, fun _ => ?_⟩
  rw [parseUrls_eq_filterMap text]
  exact length_filterMap_eq_length_filter lastUrlToken (closedGroups text)

/-- Witness for C1 at a concrete balanced text with three outermost
groups, two of which contain a URL-like token. -/
theorem claim1_witness :
    (parseUrls ("[www.a.com] x [no] y [http://b.org c]".toList)).length =
      ((closedGroups ("[www.a.com] x [no] y [http://b.org c]".toList)).filter
        (fun g => (lastUrlToken g).isSome)).length :=
  (claim1_last_token_per_group
    ("[www.a.com] x [no] y [http://b.org c]".toList)).2 (by decide)

/-- C2 is false on the code: in the text `\\[www.a.com]` the `[` is
preceded by a double backslash, so by the claim it is structural (the
spec-side scanner with the unescaped-backslash rule opens the group
and emits the URL), but the code treats any bracket preceded by a
backslash character as escaped: the depth never changes and nothing is
emitted. -/
theorem claim2_counterexample :
    parseUrls ("\\\\[www.a.com]".toList) = [] ∧
    parseUrlsSpecEsc ("\\\\[www.a.com]".toList) = ["www.a.com".toList] ∧
    (("\\\\[".toList).foldl scanStep scanInit).depth = 0 := by
  refine ⟨?_, ?_, ?_⟩ <;> decide

/-- C2 (amended): a `[` or `]` is structural unless the immediately
preceding character is a backslash — whether or not that backslash is
itself escaped.  A bracket preceded by a backslash is literal: it
never changes the depth or the results and is appended to the buffer
exactly when the depth is at least 1; a bracket not preceded by a
backslash changes the depth (`[` increments it, `]` decrements it,
with saturation at 0). -/
theorem claim2_escape_rule (st : ScanState) (ch : Char) :
    (st.lastChar = some '\\' → (ch = '[' ∨ ch = ']') →
      ((scanStep st ch).depth = st.depth ∧
       (scanStep st ch).results = st.results ∧
       (scanStep st ch).buffer =
         (if 1 ≤ st.depth then st.buffer ++ [ch] else st.buffer))) ∧
    (st.lastChar ≠ some '\\' → ch = '[' →
      (scanStep st ch).depth = st.depth + 1) ∧
    (st.lastChar ≠ some '\\' → ch = ']' →
      (scanStep st ch).depth = st.depth - 1) := by
  refine ⟨?_, ?_, ?_⟩
  · intro hesc hb
    rcases hb with rfl | rfl <;> simp [scanStep, hesc]
  · intro hne heq
    subst heq
    have hf : (st.lastChar == some '\\') = false :=
      beq_eq_false_iff_ne.mpr hne
    simp [scanStep, hf]
  · intro hne heq
    subst heq
    have hf : (st.lastChar == some '\\') = false :=
      beq_eq_false_iff_ne.mpr hne
    by_cases hd : st.depth > 0
    · simp [scanStep, hf, hd]
    · simp [scanStep, hf, hd]
      omega

/-- Witness for C2 (amended) at a concrete state inside a group with a
pending backslash. -/
theorem claim2_witness :
    (scanStep ⟨1, ['a'], some '\\', []⟩ '[').depth = 1 ∧
    (scanStep ⟨1, ['a'], some '\\', []⟩ '[').buffer = ['a', '['] ∧
    (scanStep ⟨2, [], some 'x', []⟩ ']').depth = 1 := by
  refine ⟨?_, ?_, ?_⟩
  · exact ((claim2_escape_rule ⟨1, ['a'], some '\\', []⟩ '[').1 rfl
      (Or.inl rfl)).1
  · have h := ((claim2_escape_rule ⟨1, ['a'], some '\\', []⟩ '[').1 rfl
      (Or.inl rfl)).2.2
    rw [h]
    decide
  · exact (claim2_escape_rule ⟨2, [], some 'x', []⟩ ']').2.2
      (by decide) rfl

/-- C10: `addProtocol` is idempotent, its result always carries an
`http://` or `https://` scheme (case-insensitively, which is exactly
the `hasProtocol` test of the source), a URL already carrying such a
scheme is returned unchanged, and any other string gets `https://`
prepended. -/
theorem claim10_addProtocol (u : Str) :
    addProtocol (addProtocol u) = addProtocol u ∧
    hasProtocol (addProtocol u) = true ∧
    (hasProtocol u = true → addProtocol u = u) ∧
    (hasProtocol u = false → addProtocol u = httpsL ++ u) := by
  have hlow : httpsL.map Char.toLower = httpsL := by decide
  have hpre : hasProtocol (httpsL ++ u) = true := by
    unfold hasProtocol
    rw [lowerStartsWith_of_lower_append httpsL u hlow]
    simp
  by_cases h : hasProtocol u
  · have h1 : addProtocol u = u := by unfold addProtocol; rw [if_pos h]
    refine ⟨?_, ?_, fun _ => h1, fun hcon => absurd h (by simp [hcon])⟩
    · rw [h1, h1]
    · rw [h1]
      exact h
  · have h1 : addProtocol u = httpsL ++ u := by
      unfold addProtocol; rw [if_neg h]
    refine ⟨?_, ?_, fun hcon => absurd hcon h, fun _ => h1⟩
    · rw [h1]
      unfold addProtocol
      rw [if_pos hpre]
    · rw [h1]
      exact hpre

/-- Witness for C10 at a concrete scheme-less URL. -/
theorem claim10_witness :
    addProtocol (addProtocol ("www.x.com".toList)) =
      addProtocol ("www.x.com".toList) ∧
    addProtocol ("www.x.com".toList) = httpsL ++ "www.x.com".toList :=
  ⟨(claim10_addProtocol ("www.x.com".toList)).1,
   (claim10_addProtocol ("www.x.com".toList)).2.2.2 (by decide)⟩

theorem streamStep_buf (seen : List Str) (buf chunk : Str) :
    (streamStep seen buf chunk).2.2 =
      match lastIdxOf ']' (buf ++ chunk) with
      | none => buf ++ chunk
      | some i => (buf ++ chunk).drop (i + 1) := rfl

theorem streamRun_pair (c1 c2 : Str) (h : ']' ∉ c1) :
    streamRun [c1, c2] = dedupFilter (parseUrls (c1 ++ c2)) := by
  have hp : parseUrls c1 = [] := parseUrls_nil_of_no_close c1 h
  have hli : lastIdxOf ']' c1 = none := (lastIdxOf_none_iff ']' c1).mpr h
  simp [streamRun, streamRunAux, streamStep, hp, hli, dedupFilter, dedupScan]

/-- C8 is false on the code: in `xhttp://a.com` the scheme occurrence
starts strictly inside the maximal non-whitespace run, so by the
claim there is no token; the code's regex nevertheless matches
`http://a.com`, and a bracketed occurrence is emitted by the
scanner. -/
theorem claim8_counterexample :
    findMatches ("xhttp://a.com".toList) = ["http://a.com".toList] ∧
    specRunTokens ("xhttp://a.com".toList) = [] ∧
    parseUrls ("[xhttp://a.com]".toList) = ["http://a.com".toList] := by
  refine ⟨?_, ?_, ?_⟩ <;> decide

/-- C8 (amended): every URL-token match begins (case-insensitively)
with `http://`, `https://` or `www.`, consists only of non-whitespace
non-bracket characters, and extends maximally to the right — the first
character of the remainder after the match, if any, is whitespace or a
bracket.  The scheme occurrence however need not start a maximal run:
a token may begin strictly inside a run of non-whitespace characters,
as in `xhttp://a.com`. -/
theorem claim8_tokens (s t : Str) (h : t ∈ findMatches s) :
    (schemeLen t).isSome = true ∧ t.all isUrlChar = true ∧
    ∃ u rest, tokenAt u = some (t, rest) ∧ u = t ++ rest ∧
      (∀ c, rest.head? = some c → isUrlChar c = false) := by
  obtain ⟨u, rest, hu⟩ := mem_findMatchesAux s.length s t h
  exact ⟨tokenAt_scheme u t rest hu, tokenAt_chars u t rest hu,
    u, rest, hu, (tokenAt_split u t rest hu).symm ▸ rfl,
    tokenAt_maximal u t rest hu⟩

/-- Witness for C8 (amended) at the concrete match inside
`xhttp://a.com`. -/
theorem claim8_witness :
    (schemeLen ("http://a.com".toList)).isSome = true ∧
    ("http://a.com".toList).all isUrlChar = true ∧
    ∃ u rest, tokenAt u = some (("http://a.com".toList), rest) ∧
      u = ("http://a.com".toList) ++ rest ∧
      (∀ c, rest.head? = some c → isUrlChar c = false) :=
  claim8_tokens ("xhttp://a.com".toList) ("http://a.com".toList) (by decide)

/-- C5 is false on the code: the first chunk opens a group whose text
contains an escaped `\]`; the code truncates the retained buffer after
that escaped bracket (`lastIndexOf` does not distinguish escaping), so
when the next chunk closes the group nothing is emitted — while the
spec-side driver that truncates only after a structural `]` emits the
URL, as does a single batch scan of the two chunks concatenated. -/
theorem claim5_counterexample :
    streamRun ["[www.x.com \\]".toList, "]".toList] = [] ∧
    specStreamRun ["[www.x.com \\]".toList, "]".toList] =
      ["www.x.com".toList] ∧
    parseUrls ("[www.x.com \\]".toList ++ "]".toList) =
      ["www.x.com".toList] := by
  refine ⟨?_, ?_, ?_⟩ <;> decide

/-- C5 (amended): after each incremental scan the retained buffer is
everything after the last `]` character — structural or escaped — of
the accumulated text: the retained buffer contains no `]`, rescanning
it alone emits nothing (already-closed groups are never rescanned),
and what precedes it is empty or ends with a `]`.  A still-open
group's text persists across calls only while it contains no `]`
character: when the first chunk is free of `]`, processing two chunks
admits exactly the URLs of the batch scan of their concatenation. -/
theorem claim5_truncation :
    (∀ (seen : List Str) (buf chunk : Str),
      ']' ∉ (streamStep seen buf chunk).2.2 ∧
      parseUrls (streamStep seen buf chunk).2.2 = [] ∧
      ∃ pre, buf ++ chunk = pre ++ (streamStep seen buf chunk).2.2 ∧
        (pre = [] ∨ ∃ pre2, pre = pre2 ++ [']'])) ∧
    (∀ c1 c2 : Str, ']' ∉ c1 →
      streamRun [c1, c2] = dedupFilter (parseUrls (c1 ++ c2))) := by
  constructor
  · intro seen buf chunk
    rw [streamStep_buf]
    cases hli : lastIdxOf ']' (buf ++ chunk) with
    | none =>
      have hnm : ']' ∉ buf ++ chunk := (lastIdxOf_none_iff ']' _).mp hli
      exact ⟨hnm, parseUrls_nil_of_no_close _ hnm, [], rfl, Or.inl rfl⟩
    | some i =>
      obtain ⟨htk, hdr⟩ := lastIdxOf_take_drop ']' (buf ++ chunk) i hli
      refine ⟨hdr, parseUrls_nil_of_no_close _ hdr,
        (buf ++ chunk).take (i + 1), ?_, Or.inr ⟨(buf ++ chunk).take i, htk⟩⟩
      exact (List.take_append_drop (i + 1) (buf ++ chunk)).symm
  · exact fun c1 c2 h => streamRun_pair c1 c2 h

/-- Witness for C5 (amended): a group opened in a first chunk free of
`]` and closed in the second chunk admits exactly the batch-scan
URLs. -/
theorem claim5_witness :
    streamRun ["[www.x".toList, ".com]".toList] =
      dedupFilter (parseUrls ("[www.x".toList ++ ".com]".toList)) :=
  claim5_truncation.2 ("[www.x".toList) (".com]".toList) (by decide)

/-- C6: the deduplicator admits each distinct URL exactly once: `admitUrl`
returns true and records the URL on first sight and false thereafter,
and never removes recorded URLs; the deduplicated sequence has no
duplicates, is a subsequence of the input with the same members, and
preserves first-occurrence order; and feeding two URL groups through
the shared seen set admits the same URLs as one combined pass, so a
URL occurring in two groups is admitted only at its first
occurrence. -/
theorem claim6_dedup :
    (∀ (seen : List Str) (u : Str),
      ((admitUrl seen u).1 = true ↔ u ∉ seen) ∧
      u ∈ (admitUrl seen u).2 ∧ (∀ v, v ∈ seen → v ∈ (admitUrl seen u).2)) ∧
    (∀ urls : List Str,
      (dedupFilter urls).Nodup ∧
      List.Sublist (dedupFilter urls) urls ∧
      (∀ u, u ∈ dedupFilter urls ↔ u ∈ urls)) ∧
    (∀ (urls : List Str) (a b : Str),
      a ∈ dedupFilter urls → b ∈ dedupFilter urls →
      (firstIdx a (dedupFilter urls) ≤ firstIdx b (dedupFilter urls) ↔
        firstIdx a urls ≤ firstIdx b urls)) ∧
    (∀ (seen l1 l2 : List Str),
      (dedupScan seen (l1 ++ l2)).1 =
        (dedupScan seen l1).1 ++ (dedupScan (dedupScan seen l1).2 l2).1) := by
  refine ⟨?_, ?_, ?_, ?_⟩
  · intro seen u
    by_cases hu : u ∈ seen
    · unfold admitUrl
      rw [if_pos hu]
      exact ⟨by simp [hu], hu, fun v hv => hv⟩
    · unfold admitUrl
      rw [if_neg hu]
      exact ⟨by simp [hu], List.mem_cons_self u seen,
        fun v hv => List.mem_cons_of_mem u hv⟩
  · intro urls
    refine ⟨dedupScan_fst_nodup urls [], dedupScan_fst_sublist urls [], ?_⟩
    intro u
    unfold dedupFilter
    rw [dedupScan_fst_mem urls [] u]
    simp
  · intro urls a b ha hb
    exact dedupScan_order urls [] a b ha hb
  · intro seen l1 l2
    rw [dedupScan_append l1 seen l2]

/-- Witness for C6 at the concrete input with a repeated URL. -/
theorem claim6_witness :
    firstIdx ("a".toList)
        (dedupFilter ["a".toList, "b".toList, "a".toList]) ≤
      firstIdx ("b".toList)
        (dedupFilter ["a".toList, "b".toList, "a".toList]) ↔
    firstIdx ("a".toList) ["a".toList, "b".toList, "a".toList] ≤
      firstIdx ("b".toList) ["a".toList, "b".toList, "a".toList] :=
  claim6_dedup.2.2.1 ["a".toList, "b".toList, "a".toList]
    ("a".toList) ("b".toList) (by decide) (by decide)

/-- C7: tasks are served strictly in arrival order — `enqueue` is a
pure append to the FIFO that returns to the caller at once, and the
drain worker serves the queue front to back, so the served sequence
equals the arrival sequence; after each task completes the worker
waits exactly 1000 ms before dequeuing the next, so consecutive start
times differ by the task duration plus 1000, and no two fetch cycles
start less than 1000 ms apart. -/
theorem claim7_queue (t0 : Nat) (tasks : List QTask)
    (q : List Str) (u : Str) :
    enqueue q u = q ++ [u] ∧
    (drainTrace t0 tasks).map Prod.snd = tasks ∧
    List.Chain' (fun a b : Nat × QTask =>
      b.1 = a.1 + a.2.dur + 1000) (drainTrace t0 tasks) ∧
    List.Chain' (fun a b : Nat × QTask =>
      a.1 + 1000 ≤ b.1) (drainTrace t0 tasks) := by
  refine ⟨rfl, drainTrace_tasks tasks t0, drainTrace_chain tasks t0, ?_⟩
  refine List.Chain'.imp ?_ (drainTrace_chain tasks t0)
  intro a b hab
  omega

/-- C3 is false on the code: with a first fetch attempt that resolves
with an OK status but whose body read (`res.text()`) rejects,
`processUrl` neither emits a record nor returns silently — the
exception propagates out of it. -/
theorem claim3_counterexample :
    processUrl ("www.a.com".toList) none
      (.ok ⟨true, 200, .error ("boom".toList)⟩)
      (.ok ⟨true, 200, .ok []⟩)
      (fun _ => none) (fun _ => none) (fun _ _ => []) =
      .error ("boom".toList) := rfl

/-- C3 (amended): `processUrl` contains every fetch failure — when the
retrying fetch yields no response it returns silently with just the
fetch trace, and when the selected response body reads successfully it
emits exactly one ResultRecord — but a rejection while reading the
body of a successful fetch is not caught: it propagates to the
caller. -/
theorem claim3_process_cases (url : Str) (secret : Option Str)
    (a1 a2 : FetchResult) (exT exE : Str → Option Str)
    (hashF : Str → Str → Str) :
    ((fetchWithRetry url a1 a2).1 = none →
      processUrl url secret a1 a2 exT exE hashF =
        .ok (fetchWithRetry url a1 a2).2) ∧
    (∀ r html, (fetchWithRetry url a1 a2).1 = some r → r.body = .ok html →
      processUrl url secret a1 a2 exT exE hashF =
        .ok ((fetchWithRetry url a1 a2).2 ++
          [.emit (buildOut url secret exT exE hashF html)])) ∧
    (∀ r e, (fetchWithRetry url a1 a2).1 = some r → r.body = .error e →
      processUrl url secret a1 a2 exT exE hashF = .error e) := by
  refine ⟨?_, ?_, ?_⟩
  · intro h
    cases hfe : fetchWithRetry url a1 a2 with
    | mk ro evs =>
      rw [hfe] at h
      simp only at h
      subst h
      unfold processUrl
      rw [hfe]
  · intro r html h hb
    cases hfe : fetchWithRetry url a1 a2 with
    | mk ro evs =>
      rw [hfe] at h
      simp only at h
      subst h
      unfold processUrl
      rw [hfe]
      simp only [hb]
  · intro r e h hb
    cases hfe : fetchWithRetry url a1 a2 with
    | mk ro evs =>
      rw [hfe] at h
      simp only at h
      subst h
      unfold processUrl
      rw [hfe]
      simp only [hb]

/-- Witness for C3 (amended) at a URL whose two attempts both fail:
silent return with the diagnostic trace. -/
theorem claim3_witness :
    processUrl ("www.a.com".toList) none (.error ("refused".toList))
      (.ok ⟨false, 500, .ok []⟩)
      (fun _ => none) (fun _ => none) (fun _ _ => []) =
      .ok (fetchWithRetry ("www.a.com".toList) (.error ("refused".toList))
        (.ok ⟨false, 500, .ok []⟩)).2 :=
  (claim3_process_cases ("www.a.com".toList) none
    (.error ("refused".toList)) (.ok ⟨false, 500, .ok []⟩)
    (fun _ => none) (fun _ => none) (fun _ _ => [])).1 rfl

/-- C4 is false on the code in its success clause: the first attempt
rejects and the second GET succeeds under the success criterion (a
response with an OK status), yet no ResultRecord is produced — the
body read rejects and the exception propagates. -/
theorem claim4_counterexample :
    attemptFails (.ok ⟨true, 200, .error ("reset".toList)⟩) = false ∧
    processUrl ("www.a.com".toList) none (.error ("refused".toList))
      (.ok ⟨true, 200, .error ("reset".toList)⟩)
      (fun _ => none) (fun _ => none) (fun _ _ => []) =
      .error ("reset".toList) := ⟨rfl, rfl⟩

/-- C4 (amended): when the first GET fails (rejection or non-OK
status), exactly one more GET is attempted after a fixed 60000 ms
wait; if the second attempt succeeds and its body is then read
successfully, exactly one normal ResultRecord is emitted; if the
second attempt also fails, the URL yields no record and exactly one
diagnostic, and the processing loop continues with the remaining
URLs. -/
theorem claim4_retry (url : Str) (secret : Option Str)
    (a1 a2 : FetchResult) (exT exE : Str → Option Str)
    (hashF : Str → Str → Str) (h1 : attemptFails a1 = true) :
    ((fetchWithRetry url a1 a2).2 =
      if attemptFails a2 then
        [.get (addProtocol url), .wait 60000, .get (addProtocol url),
          .diag url]
      else [.get (addProtocol url), .wait 60000, .get (addProtocol url)]) ∧
    (∀ r2 html, a2 = .ok r2 → r2.ok = true → r2.body = .ok html →
      processUrl url secret a1 a2 exT exE hashF =
        .ok [.get (addProtocol url), .wait 60000, .get (addProtocol url),
          .emit (buildOut url secret exT exE hashF html)]) ∧
    (attemptFails a2 = true →
      processUrl url secret a1 a2 exT exE hashF =
        .ok [.get (addProtocol url), .wait 60000, .get (addProtocol url),
          .diag url] ∧
      (∀ (oracle : Str → FetchResult × FetchResult) (rest : List Str),
        oracle url = (a1, a2) →
        runUrls secret oracle exT exE hashF (url :: rest) =
          (runUrls secret oracle exT exE hashF rest).map
            (fun evs => [.get (addProtocol url), .wait 60000,
              .get (addProtocol url), .diag url] ++ [.wait 1000] ++ evs))) := by
  have hfe : fetchWithRetry url a1 a2 =
      if attemptFails a2 then
        (none, [.get (addProtocol url), .wait 60000, .get (addProtocol url),
          .diag url])
      else (a2.toOption,
        [.get (addProtocol url), .wait 60000, .get (addProtocol url)]) := by
    unfold fetchWithRetry
    rw [if_pos h1]
  refine ⟨?_, ?_, ?_⟩
  · rw [hfe]
    by_cases h2 : attemptFails a2 <;> simp [h2]
  · intro r2 html ha2 hok hb
    have h2 : attemptFails a2 = false := by
      rw [ha2]; simp [attemptFails, hok]
    rw [h2] at hfe
    simp only [if_false, Bool.false_eq_true] at hfe
    unfold processUrl
    rw [hfe]
    simp only [ha2, Except.toOption, hb]
    rfl
  · intro h2
    rw [h2] at hfe
    simp only [if_true] at hfe
    have hp : processUrl url secret a1 a2 exT exE hashF =
        .ok [.get (addProtocol url), .wait 60000, .get (addProtocol url),
          .diag url] := by
      unfold processUrl
      rw [hfe]
    refine ⟨hp, ?_⟩
    intro oracle rest horacle
    cases hr : runUrls secret oracle exT exE hashF rest with
    | error e => simp [runUrls, horacle, hp, hr, Except.map]
    | ok evs2 => simp [runUrls, horacle, hp, hr, Except.map]

/-- Witness for C4 (amended) at a URL whose first attempt rejects and
whose second attempt succeeds with a readable body: one record is
emitted after the 60000 ms wait and the second GET. -/
theorem claim4_witness :
    processUrl ("www.a.com".toList) none (.error ("refused".toList))
      (.ok ⟨true, 200, .ok ("<p>hi</p>".toList)⟩)
      (fun _ => none) (fun _ => none) (fun _ _ => []) =
      .ok [.get (addProtocol ("www.a.com".toList)), .wait 60000,
        .get (addProtocol ("www.a.com".toList)),
        .emit (buildOut ("www.a.com".toList) none (fun _ => none)
          (fun _ => none) (fun _ _ => []) ("<p>hi</p>".toList))] :=
  (claim4_retry ("www.a.com".toList) none (.error ("refused".toList))
    (.ok ⟨true, 200, .ok ("<p>hi</p>".toList)⟩)
    (fun _ => none) (fun _ => none) (fun _ _ => []) rfl).2.1
    ⟨true, 200, .ok ("<p>hi</p>".toList)⟩ ("<p>hi</p>".toList) rfl rfl rfl

/-- C9 is false on the code in its status clause: on an unreadable
input file, file mode prints exactly one diagnostic and returns
normally without processing any URL — the run then exits with a
success status, not a failure status. -/
theorem claim9_counterexample :
    mainFile (.error ("ENOENT".toList)) =
      ⟨["ENOENT".toList], [], true⟩ := rfl

/-- C9 (amended): if the input file cannot be read, the run emits
exactly one diagnostic and aborts without processing any URL, but it
terminates normally: the overall success/failure status does not
report the read failure. -/
theorem claim9_read_failure (e : Str) :
    (mainFile (.error e)).diags = [e] ∧
    (mainFile (.error e)).processed = [] ∧
    (mainFile (.error e)).normalExit = true := ⟨rfl, rfl, rfl⟩

end UrlParser
